import Mathlib

/- Verification of the hybrid retrieval engine of this repository: the
   Reciprocal Rank Fusion routine, the paragraph chunker, the ingestion
   pipeline and the batched LLM reranker, modelled shallowly from the Python
   sources.  Python floats are modelled as exact rationals (every score that
   the claims mention is a small sum of unit fractions, on which IEEE
   addition agrees with exact arithmetic for the equalities and comparisons
   at issue), Python dicts as insertion-ordered association lists, and
   Python's stable list sort as insertion sort with a total comparison,
   which computes the same output as any stable sort.  External
   collaborators (the tiktoken tokenizer, the OpenAI embedder, the docling
   parser, the relevance judge) are abstracted as function parameters. -/

namespace HybridSearch

/-! ## Reciprocal Rank Fusion
    From src/code/python/week-3/04_hybrid_search.py, lines 131-153
    (identical copy in src/code/week-3/06_hybrid_search.py, lines 113-135). -/

/-- One Python dict update `scores[doc_id] += v` (with `scores[doc_id] = 0.0`
first when the key is new): an existing key keeps its position, a new key is
appended at the tail, mirroring dict insertion order. -/
def addScore : List (ℕ × ℚ) → ℕ → ℚ → List (ℕ × ℚ)
  | [], i, v => [(i, v)]
  | (j, s) :: rest, i, v =>
    if j = i then (j, s + v) :: rest else (j, s) :: addScore rest i v

/-- Inner loop `for rank, doc_id in enumerate(ranking, start=1):
scores[doc_id] += 1.0 / (k + rank)`, carrying the current 1-based rank. -/
def rrfAddList (k : ℕ) : List (ℕ × ℚ) → List ℕ → ℕ → List (ℕ × ℚ)
  | scores, [], _ => scores
  | scores, docId :: rest, rank =>
    rrfAddList k (addScore scores docId (1 / ((k + rank : ℕ) : ℚ))) rest (rank + 1)

/-- The score dict built by the two nested loops of `reciprocal_rank_fusion`. -/
def rrfScores (rankings : List (List ℕ)) (k : ℕ) : List (ℕ × ℚ) :=
  rankings.foldl (fun scores ranking => rrfAddList k scores ranking 1) []

/-- Python's `sorted(items, key=lambda x: x[1], reverse=True)`: a stable
descending sort on the second component.  Insertion sort with the total
relation `y.2 ≤ x.2` computes exactly the stable descending order. -/
def pySortDesc (l : List (ℕ × ℚ)) : List (ℕ × ℚ) :=
  l.insertionSort (fun x y => y.2 ≤ x.2)

/-- `reciprocal_rank_fusion(rankings, k=60)`: accumulate reciprocal-rank
contributions into the score dict, then sort the items by score descending. -/
def reciprocal_rank_fusion (rankings : List (List ℕ)) (k : ℕ := 60) : List (ℕ × ℚ) :=
  pySortDesc (rrfScores rankings k)

/-- Lookup of an id in the score table (`scores.get(doc_id)`). -/
def getScore? : List (ℕ × ℚ) → ℕ → Option ℚ
  | [], _ => none
  | (j, s) :: rest, i => if j = i then some s else getScore? rest i

/-- Spec-side formula: the contribution of one ranked list to an id's fused
score, `1/(k + rank)` at the id's 1-based rank, `0` when the id is absent. -/
def specContrib (k : ℕ) (ranking : List ℕ) (i : ℕ) : ℚ :=
  if i ∈ ranking then 1 / ((k + (ranking.indexOf i + 1) : ℕ) : ℚ) else 0

/-- Spec-side formula: fused score of an id is the sum of the per-list
reciprocal-rank contributions. -/
def specScore (rankings : List (List ℕ)) (k : ℕ) (i : ℕ) : ℚ :=
  (rankings.map fun ranking => specContrib k ranking i).sum

/-! ## Chunker
    From src/projects/week-3-doc-search/ingest.py, lines 63-97.
    The tokenizer (tiktoken `cl100k_base`, an external library) is abstracted
    as a parameter `tc : String → ℕ` standing for `count_tokens`. -/

/-- Whitespace as stripped by Python's `str.strip()`. -/
def isWS (c : Char) : Bool := c.isWhitespace

/-- Python `str.strip()`: drop leading and trailing whitespace. -/
def pyStrip (s : String) : String :=
  String.mk (List.rdropWhile isWS (List.dropWhile isWS s.data))

/-- Python `text.split(sep)` for the two-character separator of two newlines:
cut at every non-overlapping occurrence, scanning greedily left to right. -/
def pySplitAux : List Char → List Char → List (List Char)
  | [], acc => [acc.reverse]
  | [c], acc => [(c :: acc).reverse]
  | c1 :: c2 :: rest, acc =>
    if c1 = '\n' ∧ c2 = '\n' then acc.reverse :: pySplitAux rest []
    else pySplitAux (c2 :: rest) (c1 :: acc)

/-- Python `text.split(two-newline separator)`. -/
def pySplit (s : String) : List String :=
  (pySplitAux s.data []).map String.mk

/-- Python `sep.join(chunks)` for the blank-line separator. -/
def joinPy : List String → String
  | [] => ""
  | s :: rest => rest.foldl (fun acc x => acc ++ "\n\n" ++ x) s

/-- Join with a blank line unless the accumulator is still empty (proof-side
helper describing how the chunker's buffer grows). -/
def pyAppend (a b : String) : String := if a = "" then b else a ++ "\n\n" ++ b

/-- The non-empty stripped paragraphs of a text, in order: exactly the
paragraphs the chunker's loop does not skip. -/
def cleanParas (text : String) : List String :=
  ((pySplit text).map pyStrip).filter (fun p => p ≠ "")

/-- Loop state of `chunk_text`: emitted chunks (each with the token count the
code tracked for it in `current_tokens`), the current buffer, and the
buffer's tracked token count.  The Python list stores only the content; the
token count carried next to each chunk is proof-side instrumentation
recording the value `current_tokens` had when the chunk was flushed. -/
structure ChunkState where
  chunks : List (String × ℕ)
  cur : String
  tok : ℕ
deriving DecidableEq

/-- One iteration of the paragraph loop of `chunk_text`. -/
def chunkStep (tc : String → ℕ) (maxT : ℕ) (st : ChunkState) (para : String) : ChunkState :=
  let p := pyStrip para
  if p = "" then st
  else
    let ptok := tc p
    if st.cur ≠ "" ∧ maxT < st.tok + ptok then
      ⟨st.chunks ++ [(pyStrip st.cur, st.tok)], p, ptok⟩
    else if st.cur ≠ "" then
      ⟨st.chunks, st.cur ++ "\n\n" ++ p, st.tok + ptok⟩
    else
      ⟨st.chunks, p, st.tok + ptok⟩

/-- The final-chunk handling of `chunk_text`: flush the remaining buffer,
merging it into the previous chunk when its tracked token count is below the
minimum and a prior chunk exists. -/
def chunkFinish (minT : ℕ) (st : ChunkState) : List (String × ℕ) :=
  if st.cur = "" then st.chunks
  else
    let c := pyStrip st.cur
    if st.tok < minT ∧ st.chunks ≠ [] then
      st.chunks.dropLast ++
        [((st.chunks.getLastD ("", 0)).1 ++ "\n\n" ++ c,
          (st.chunks.getLastD ("", 0)).2 + st.tok)]
    else
      st.chunks ++ [(c, st.tok)]

/-- The paragraph loop of `chunk_text` as a fold. -/
def chunkRun (tc : String → ℕ) (maxT : ℕ) (paras : List String) (st : ChunkState) : ChunkState :=
  paras.foldl (chunkStep tc maxT) st

/-- `chunk_text` with the token bounds as parameters, keeping the tracked
token count of each chunk. -/
def chunk_textP (tc : String → ℕ) (minT maxT : ℕ) (text : String) : List (String × ℕ) :=
  chunkFinish minT (chunkRun tc maxT (pySplit text) ⟨[], "", 0⟩)

def MIN_CHUNK_TOKENS : ℕ := 100

def MAX_CHUNK_TOKENS : ℕ := 500

/-- `chunk_text(text)` of src/projects/week-3-doc-search/ingest.py: the
chunk contents, with the source's fixed bounds. -/
def chunk_text (tc : String → ℕ) (text : String) : List String :=
  (chunk_textP tc MIN_CHUNK_TOKENS MAX_CHUNK_TOKENS text).map Prod.fst

/-! ## Ingestion
    From src/projects/week-3-doc-search/ingest.py, lines 117-179, and
    src/projects/week-4-rag-chatbot/backend/scripts/ingest.py, lines 20-53.
    The database is modelled as the list of rows of the `chunks` table; the
    embedder is an abstract function.  `parse_document` (docling) is
    abstracted by passing its result `text` directly. -/

/-- A row of the `chunks` table: source, content, embedding. -/
structure Row (E : Type) where
  source : String
  content : String
  embedding : E
deriving DecidableEq

/-- `ingest_document(source)` of week-3-doc-search/ingest.py, given the parse
result `text`: return 0 before touching the database when the parsed text is
blank or chunking yields nothing; otherwise, in one transaction, delete every
row of this source and insert the fresh chunks in order.  Returns the chunk
count and the new table state. -/
def ingest_document {E : Type} (tc : String → ℕ) (embed : String → E)
    (source text : String) (db : List (Row E)) : ℕ × List (Row E) :=
  if pyStrip text = "" then (0, db)
  else
    let chunks := chunk_text tc text
    if chunks = [] then (0, db)
    else
      (chunks.length,
        db.filter (fun r => r.source ≠ source) ++
          chunks.map (fun c => ⟨source, c, embed c⟩))

/-- `ingest_document(file_path, conn)` of the week-4 rag-chatbot backend
script, given the docling chunk texts (heading context already applied): it
only inserts rows for the source, with no preceding delete. -/
def ingest_document_w4 {E : Type} (embed : String → E) (source : String)
    (chunk_texts : List String) (db : List (Row E)) : ℕ × List (Row E) :=
  if chunk_texts = [] then (0, db)
  else (chunk_texts.length, db ++ chunk_texts.map (fun c => ⟨source, c, embed c⟩))

/-- The aggregate batch summary built by `ingest_directory`. -/
structure IngestStats where
  total : ℕ
  success : ℕ
  failed : ℕ
  chunks : ℕ
deriving DecidableEq

/-- `ingest_directory(directory)` of week-3-doc-search/ingest.py: try each
file; a success adds its chunk count, an exception increments `failed` and
the loop continues.  `ingestOne` abstracts `ingest_document`, `none`
standing for a raised exception. -/
def ingest_directory {α : Type} (ingestOne : α → Option ℕ) (files : List α) : IngestStats :=
  files.foldl
    (fun st file =>
      match ingestOne file with
      | some n => { st with success := st.success + 1, chunks := st.chunks + n }
      | none => { st with failed := st.failed + 1 })
    ⟨files.length, 0, 0, 0⟩

/-! ## Batched reranker
    From src/code/python/week-3/08_reranking.py, lines 155-189.
    The judge call is abstracted: `scores` is the parsed score list of the
    LLM response (`response.output_parsed.scores`). -/

/-- `rerank_with_llm_batch(query, documents, top_n=3)` after the judge call:
pair documents with scores positionally (`zip`, which silently truncates to
the shorter list), sort by score descending (Python's stable `list.sort`),
and keep the first `top_n`. -/
def rerank_with_llm_batch {α : Type} (documents : List α) (scores : List ℤ)
    (top_n : ℕ := 3) : List (α × ℤ) :=
  ((documents.zip scores).insertionSort (fun x y => y.2 ≤ x.2)).take top_n

/-! ## Lemmas about the RRF score dict -/

theorem getScore?_addScore (sc : List (ℕ × ℚ)) (i j : ℕ) (v : ℚ) :
    getScore? (addScore sc i v) j =
      if j = i then some ((getScore? sc i).getD 0 + v) else getScore? sc j := by
  induction sc with
  | nil =>
    by_cases h : j = i
    · subst h; simp [addScore, getScore?]
    · have h' : ¬ i = j := fun hh => h hh.symm
      simp [addScore, getScore?, h, h']
  | cons a rest ih =>
    obtain ⟨j1, s1⟩ := a
    by_cases h1 : j1 = i
    · subst h1
      by_cases h2 : j = j1
      · subst h2; simp [addScore, getScore?]
      · have h2' : ¬ j1 = j := fun hh => h2 hh.symm
        simp [addScore, getScore?, h2, h2']
    · by_cases h2 : j1 = j
      · subst h2
        have hji : ¬ j1 = i := h1
        simp [addScore, getScore?, h1, hji]
      · simp [addScore, getScore?, h1, h2, ih]

theorem getScore?_mem {sc : List (ℕ × ℚ)} {i : ℕ} {s : ℚ}
    (h : getScore? sc i = some s) : (i, s) ∈ sc := by
  induction sc with
  | nil => simp [getScore?] at h
  | cons a rest ih =>
    obtain ⟨j1, s1⟩ := a
    by_cases h1 : j1 = i
    · subst h1
      simp [getScore?] at h
      simp [h]
    · rw [getScore?, if_neg h1] at h
      exact List.mem_cons_of_mem _ (ih h)

theorem getScore?_rrfAddList (k : ℕ) (l : List ℕ) (hl : l.Nodup)
    (sc : List (ℕ × ℚ)) (r : ℕ) (i : ℕ) :
    getScore? (rrfAddList k sc l r) i =
      if i ∈ l then
        some ((getScore? sc i).getD 0 + 1 / ((k + r + l.indexOf i : ℕ) : ℚ))
      else getScore? sc i := by
  induction l generalizing sc r with
  | nil => simp [rrfAddList]
  | cons hd tl ih =>
    rw [rrfAddList]
    obtain ⟨hhd, htl⟩ := List.nodup_cons.mp hl
    by_cases hih : i = hd
    · subst hih
      rw [ih htl, if_neg hhd, getScore?_addScore, if_pos rfl,
        if_pos (List.mem_cons_self i tl)]
      have hidx : k + r + List.indexOf i (i :: tl) = k + r := by
        rw [List.indexOf_cons_self]
        omega
      rw [hidx]
    · rw [ih htl, getScore?_addScore, if_neg hih]
      by_cases hmem : i ∈ tl
      · rw [if_pos hmem, if_pos (List.mem_cons_of_mem hd hmem)]
        have hne : hd ≠ i := fun h => hih h.symm
        have hidx : k + (r + 1) + List.indexOf i tl = k + r + List.indexOf i (hd :: tl) := by
          rw [List.indexOf_cons_ne _ hne]
          omega
        rw [hidx]
      · rw [if_neg hmem, if_neg (by
          intro hcon
          rcases List.mem_cons.mp hcon with hcon | hcon
          · exact hih hcon
          · exact hmem hcon)]

theorem getScore?_rrfScores_aux (k : ℕ) (R : List (List ℕ))
    (hR : ∀ l ∈ R, l.Nodup) (sc : List (ℕ × ℚ)) (i : ℕ) :
    getScore? (R.foldl (fun scores ranking => rrfAddList k scores ranking 1) sc) i =
      if (getScore? sc i).isSome ∨ (∃ l ∈ R, i ∈ l) then
        some ((getScore? sc i).getD 0 + (R.map fun l => specContrib k l i).sum)
      else none := by
  induction R generalizing sc with
  | nil =>
    cases h : getScore? sc i <;> simp [h]
  | cons l R ih =>
    rw [List.foldl_cons, ih (fun x hx => hR x (List.mem_cons_of_mem l hx))]
    rw [getScore?_rrfAddList k l (hR l (List.mem_cons_self l R)) sc 1 i]
    by_cases hmem : i ∈ l
    · rw [if_pos hmem]
      have hcontrib : specContrib k l i = 1 / ((k + 1 + l.indexOf i : ℕ) : ℚ) := by
        rw [specContrib, if_pos hmem]
        have hn : k + (l.indexOf i + 1) = k + 1 + l.indexOf i := by omega
        rw [hn]
      rw [if_pos (Or.inl (by simp)), if_pos (Or.inr ⟨l, List.mem_cons_self l R, hmem⟩)]
      rw [Option.getD_some, List.map_cons, List.sum_cons, hcontrib, add_assoc]
    · rw [if_neg hmem]
      have hcontrib : specContrib k l i = 0 := by rw [specContrib, if_neg hmem]
      simp only [List.map_cons, List.sum_cons, hcontrib, zero_add, List.mem_cons]
      by_cases hpres : (getScore? sc i).isSome = true ∨ ∃ x ∈ R, i ∈ x
      · rw [if_pos hpres, if_pos]
        rcases hpres with hpres | ⟨x, hx, hix⟩
        · exact Or.inl hpres
        · exact Or.inr ⟨x, List.mem_cons_of_mem l hx, hix⟩
      · rw [if_neg hpres, if_neg]
        intro hcon
        rcases hcon with hcon | ⟨x, hx, hix⟩
        · exact hpres (Or.inl hcon)
        · rcases List.mem_cons.mp hx with hx2 | hx2
          · exact hmem (hx2 ▸ hix)
          · exact hpres (Or.inr ⟨x, hx2, hix⟩)

theorem getScore?_rrfScores (k : ℕ) (R : List (List ℕ))
    (hR : ∀ l ∈ R, l.Nodup) (i : ℕ) :
    getScore? (rrfScores R k) i =
      if ∃ l ∈ R, i ∈ l then some (specScore R k i) else none := by
  rw [rrfScores, getScore?_rrfScores_aux k R hR [] i]
  simp [getScore?, specScore]

/-! ## Lemmas about the descending stable sort -/

theorem pySortDesc_perm (l : List (ℕ × ℚ)) : List.Perm (pySortDesc l) l :=
  List.perm_insertionSort _ _

theorem pySortDesc_sorted (l : List (ℕ × ℚ)) :
    List.Sorted (fun x y : ℕ × ℚ => y.2 ≤ x.2) (pySortDesc l) := by
  haveI : IsTotal (ℕ × ℚ) (fun x y => y.2 ≤ x.2) := ⟨fun a b => le_total b.2 a.2⟩
  haveI : IsTrans (ℕ × ℚ) (fun x y => y.2 ≤ x.2) := ⟨fun a b c h1 h2 => le_trans h2 h1⟩
  exact List.sorted_insertionSort _ _

/-- An id with strictly greater fused score appears strictly earlier in the
fused output. -/
theorem rrf_before_of_lt (R : List (List ℕ)) (k : ℕ) (i j : ℕ) (si sj : ℚ)
    (hi : getScore? (rrfScores R k) i = some si)
    (hj : getScore? (rrfScores R k) j = some sj)
    (hlt : sj < si) :
    ∃ n m : ℕ, n < m ∧ (reciprocal_rank_fusion R k)[n]? = some (i, si) ∧
      (reciprocal_rank_fusion R k)[m]? = some (j, sj) := by
  have hmi : (i, si) ∈ reciprocal_rank_fusion R k :=
    ((pySortDesc_perm _).mem_iff).mpr (getScore?_mem hi)
  have hmj : (j, sj) ∈ reciprocal_rank_fusion R k :=
    ((pySortDesc_perm _).mem_iff).mpr (getScore?_mem hj)
  obtain ⟨nf, hgn⟩ := List.mem_iff_get.mp hmi
  obtain ⟨mf, hgm⟩ := List.mem_iff_get.mp hmj
  have hsorted : List.Sorted (fun x y : ℕ × ℚ => y.2 ≤ x.2) (reciprocal_rank_fusion R k) :=
    pySortDesc_sorted _
  have hlt2 : nf < mf := by
    rcases lt_trichotomy nf mf with h | h | h
    · exact h
    · exfalso
      rw [h, hgm] at hgn
      have : si = sj := congrArg Prod.snd hgn.symm
      exact absurd (this ▸ hlt) (lt_irrefl _)
    · exfalso
      have hrel := hsorted.rel_get_of_lt h
      rw [hgn, hgm] at hrel
      exact absurd (lt_of_lt_of_le hlt hrel) (lt_irrefl _)
  refine ⟨nf, mf, hlt2, ?_, ?_⟩
  · rw [List.getElem?_eq_getElem nf.isLt, ← hgn]
    rfl
  · rw [List.getElem?_eq_getElem mf.isLt, ← hgm]
    rfl

/-- C1: `reciprocal_rank_fusion` with `k = 60` gives every id the fused score
`Σ_lists 1/(60 + rank)` at its 1-based rank (0 from a list it is absent
from), returns exactly the score-table entries, sorted by fused score
descending; and on `[[1,2,3], [2,1,4]]` (the lists `[A,B,C]`, `[B,A,D]` with
`A=1, B=2, C=3, D=4`) the scores are `1/61 + 1/62` for A, `1/62 + 1/61` for
B and `1/63` for each of C and D. -/
theorem rrf_assigns_reciprocal_rank_scores (rankings : List (List ℕ))
    (hnd : ∀ l ∈ rankings, l.Nodup) :
    (∀ i : ℕ, getScore? (rrfScores rankings 60) i =
      if ∃ l ∈ rankings, i ∈ l then some (specScore rankings 60 i) else none) ∧
    List.Perm (reciprocal_rank_fusion rankings 60) (rrfScores rankings 60) ∧
    List.Sorted (fun x y : ℕ × ℚ => y.2 ≤ x.2) (reciprocal_rank_fusion rankings 60) ∧
    reciprocal_rank_fusion [[1, 2, 3], [2, 1, 4]] 60 =
      [(1, 1/61 + 1/62), (2, 1/62 + 1/61), (3, 1/63), (4, 1/63)] := by
  refine ⟨fun i => getScore?_rrfScores 60 rankings hnd i,
    pySortDesc_perm _, pySortDesc_sorted _, ?_⟩
  norm_num [reciprocal_rank_fusion, pySortDesc, rrfScores, rrfAddList, addScore,
    List.insertionSort, List.orderedInsert]

theorem rrf_assigns_reciprocal_rank_scores_witness :
    ((∀ l ∈ ([[1, 2, 3], [2, 1, 4]] : List (List ℕ)), l.Nodup) ∧
      reciprocal_rank_fusion [[1, 2, 3], [2, 1, 4]] 60 =
        [(1, 1/61 + 1/62), (2, 1/62 + 1/61), (3, 1/63), (4, 1/63)]) :=
  ⟨by decide, (rrf_assigns_reciprocal_rank_scores [[1, 2, 3], [2, 1, 4]] (by decide)).2.2.2⟩

/-- C4 counterexample: ids 1 and 2 tie at fused score `1/61`, yet the output
orders 2 before 1 — dict-insertion order, not ascending `chunk_id` (which
would give `[1, 2]`). -/
theorem rrf_tiebreak_counterexample :
    reciprocal_rank_fusion [[2], [1]] 60 = [(2, 1/61), (1, 1/61)] ∧
    (reciprocal_rank_fusion [[2], [1]] 60).map Prod.fst ≠ [1, 2] := by
  norm_num [reciprocal_rank_fusion, pySortDesc, rrfScores, rrfAddList, addScore,
    List.insertionSort, List.orderedInsert]

/-- C4 amended: equal fused scores are ordered by first occurrence in the
score table (Python dict insertion order, i.e. arrival order over the input
lists), because the sort is stable: any score-tied pair of table entries
keeps its relative order in the fused output. -/
theorem rrf_ties_keep_insertion_order (rankings : List (List ℕ)) (k : ℕ)
    (x y : ℕ × ℚ) (h : x.2 = y.2)
    (hsub : List.Sublist [x, y] (rrfScores rankings k)) :
    List.Sublist [x, y] (reciprocal_rank_fusion rankings k) := by
  show List.Sublist [x, y] ((rrfScores rankings k).insertionSort fun a b => b.2 ≤ a.2)
  exact List.pair_sublist_insertionSort (le_of_eq h.symm) hsub

theorem rrf_ties_keep_insertion_order_witness :
    List.Sublist [((2 : ℕ), (1 : ℚ)/61), (1, 1/61)] (reciprocal_rank_fusion [[2], [1]] 60) := by
  refine rrf_ties_keep_insertion_order [[2], [1]] 60 (2, 1/61) (1, 1/61) rfl ?_
  have h : rrfScores [[2], [1]] 60 = [(2, 1/61), (1, 1/61)] := by
    norm_num [rrfScores, rrfAddList, addScore]
  rw [h]

/-- C6: an id at rank 1 of both lists scores `1/61 + 1/61`; an id at rank 1
of one list and absent from the other scores `1/61 + 0`; the former is
strictly larger, and an id with strictly larger fused score is placed
strictly earlier in the fused output. -/
theorem rrf_rank1_both_beats_rank1_single :
    (∀ (t1 t2 : List ℕ) (x : ℕ), (x :: t1).Nodup → (x :: t2).Nodup →
      getScore? (rrfScores [x :: t1, x :: t2] 60) x = some (1/61 + 1/61)) ∧
    (∀ (s1 s2 : List ℕ) (y : ℕ), (y :: s1).Nodup → s2.Nodup → y ∉ s2 →
      getScore? (rrfScores [y :: s1, s2] 60) y = some (1/61 + 0)) ∧
    ((1 : ℚ)/61 + 0 < 1/61 + 1/61) ∧
    (∀ (R : List (List ℕ)) (i j : ℕ) (si sj : ℚ),
      getScore? (rrfScores R 60) i = some si →
      getScore? (rrfScores R 60) j = some sj → sj < si →
      ∃ n m : ℕ, n < m ∧ (reciprocal_rank_fusion R 60)[n]? = some (i, si) ∧
        (reciprocal_rank_fusion R 60)[m]? = some (j, sj)) := by
  refine ⟨?_, ?_, by norm_num, fun R i j si sj hi hj hlt => rrf_before_of_lt R 60 i j si sj hi hj hlt⟩
  · intro t1 t2 x h1 h2
    have hnd : ∀ l ∈ [x :: t1, x :: t2], l.Nodup := by
      intro l hl
      rcases List.mem_cons.mp hl with hl | hl
      · exact hl ▸ h1
      · rcases List.mem_cons.mp hl with hl | hl
        · exact hl ▸ h2
        · exact absurd hl (List.not_mem_nil l)
    rw [getScore?_rrfScores 60 _ hnd x,
      if_pos ⟨x :: t1, List.mem_cons_self _ _, List.mem_cons_self x t1⟩]
    simp [specScore, specContrib, List.indexOf_cons_self]
    norm_num
  · intro s1 s2 y h1 h2 hy
    have hnd : ∀ l ∈ [y :: s1, s2], l.Nodup := by
      intro l hl
      rcases List.mem_cons.mp hl with hl | hl
      · exact hl ▸ h1
      · rcases List.mem_cons.mp hl with hl | hl
        · exact hl ▸ h2
        · exact absurd hl (List.not_mem_nil l)
    rw [getScore?_rrfScores 60 _ hnd y,
      if_pos ⟨y :: s1, List.mem_cons_self _ _, List.mem_cons_self y s1⟩]
    simp [specScore, specContrib, List.indexOf_cons_self, hy]
    norm_num

theorem rrf_rank1_both_beats_rank1_single_witness :
    getScore? (rrfScores [[1, 2], [1, 3]] 60) 1 = some (1/61 + 1/61) ∧
    getScore? (rrfScores [[4, 5], [6]] 60) 4 = some (1/61 + 0) ∧
    (∃ n m : ℕ, n < m ∧
      (reciprocal_rank_fusion [[1, 2], [1, 3]] 60)[n]? = some (1, 1/61 + 1/61) ∧
      (reciprocal_rank_fusion [[1, 2], [1, 3]] 60)[m]? = some (2, 1/62)) :=
  by
  have h1 := rrf_rank1_both_beats_rank1_single.1 [2] [3] 1 (by decide) (by decide)
  have h2 := rrf_rank1_both_beats_rank1_single.2.1 [5] [6] 4 (by decide) (by decide) (by decide)
  have hj : getScore? (rrfScores [[1, 2], [1, 3]] 60) 2 = some (1/62) := by
    norm_num [rrfScores, rrfAddList, addScore, getScore?]
  have h3 := rrf_rank1_both_beats_rank1_single.2.2.2 [[1, 2], [1, 3]] 1 2 (1/61 + 1/61) (1/62)
    h1 hj (by norm_num)
  exact ⟨h1, h2, h3⟩

/-! ## Lemmas about Python strip and the chunker loop state -/

theorem data_ne_of_ne_empty {s : String} (h : s ≠ "") : s.data ≠ [] := by
  intro hd
  exact h (String.ext (by rw [hd]))

theorem ne_empty_of_data_ne {s : String} (h : s.data ≠ []) : s ≠ "" := by
  intro he
  rw [he] at h
  exact h rfl

theorem append_sep_ne_empty (a b : String) : a ++ "\n\n" ++ b ≠ "" := by
  intro h
  have hd := congrArg String.data h
  rw [String.data_append, String.data_append] at hd
  rcases List.append_eq_nil.mp hd with ⟨hd1, _⟩
  rcases List.append_eq_nil.mp hd1 with ⟨_, hd2⟩
  exact absurd hd2 (by decide)

theorem pyStrip_data (s : String) :
    (pyStrip s).data = List.rdropWhile isWS (List.dropWhile isWS s.data) := rfl

theorem pyStrip_empty : pyStrip "" = "" := rfl

theorem pyStrip_eq_self_of {s : String}
    (h1 : List.dropWhile isWS s.data = s.data)
    (h2 : List.rdropWhile isWS s.data = s.data) : pyStrip s = s := by
  apply String.ext
  rw [pyStrip_data, h1, h2]

theorem dropWhile_eq_self_of_stripped {s : String} (h : pyStrip s = s) :
    List.dropWhile isWS s.data = s.data := by
  have hd : List.rdropWhile isWS (List.dropWhile isWS s.data) = s.data := by
    rw [← pyStrip_data, h]
  have hlen1 : (List.rdropWhile isWS (List.dropWhile isWS s.data)).length ≤
      (List.dropWhile isWS s.data).length :=
    (List.rdropWhile_prefix isWS _).length_le
  have hlen2 : (List.dropWhile isWS s.data).length ≤ s.data.length :=
    (List.dropWhile_suffix isWS).length_le
  exact (List.dropWhile_suffix isWS).eq_of_length (by
    have := congrArg List.length hd
    omega)

theorem rdropWhile_eq_self_of_stripped {s : String} (h : pyStrip s = s) :
    List.rdropWhile isWS s.data = s.data := by
  have hd : List.rdropWhile isWS (List.dropWhile isWS s.data) = s.data := by
    rw [← pyStrip_data, h]
  rw [dropWhile_eq_self_of_stripped h] at hd
  exact hd

theorem not_ws_of_dropWhile_cons {l l2 : List Char} {c : Char}
    (h : List.dropWhile isWS l = c :: l2) : isWS c = false := by
  induction l with
  | nil => simp [List.dropWhile] at h
  | cons a t ih =>
    rw [List.dropWhile_cons] at h
    by_cases ha : isWS a = true
    · rw [if_pos ha] at h
      exact ih h
    · rw [if_neg ha] at h
      obtain ⟨hac, -⟩ := List.cons.injEq a t c l2 ▸ h
      rw [← hac]
      exact Bool.eq_false_iff.mpr ha

theorem not_ws_of_rdropWhile_concat {l l2 : List Char} {c : Char}
    (h : List.rdropWhile isWS l = l2 ++ [c]) : isWS c = false := by
  have h2 : List.dropWhile isWS l.reverse = c :: l2.reverse := by
    have hrev := congrArg List.reverse h
    rw [List.rdropWhile, List.reverse_reverse, List.reverse_append,
      List.reverse_singleton, List.singleton_append] at hrev
    exact hrev
  exact not_ws_of_dropWhile_cons h2

theorem stripped_head {s : String} (h : pyStrip s = s) {c : Char} {l : List Char}
    (hd : s.data = c :: l) : isWS c = false := by
  have h1 := dropWhile_eq_self_of_stripped h
  rw [hd] at h1
  exact not_ws_of_dropWhile_cons h1

theorem stripped_last {s : String} (h : pyStrip s = s) {c : Char} {l : List Char}
    (hd : s.data = l ++ [c]) : isWS c = false := by
  have h1 := rdropWhile_eq_self_of_stripped h
  rw [hd] at h1
  exact not_ws_of_rdropWhile_concat h1

theorem pyStrip_idem (s : String) : pyStrip (pyStrip s) = pyStrip s := by
  apply pyStrip_eq_self_of
  · rw [pyStrip_data]
    rcases hr : List.rdropWhile isWS (List.dropWhile isWS s.data) with _ | ⟨c, rest⟩
    · rfl
    · obtain ⟨t, ht⟩ := List.rdropWhile_prefix isWS (List.dropWhile isWS s.data)
      rw [hr, List.cons_append] at ht
      have hc : isWS c = false := not_ws_of_dropWhile_cons ht.symm
      rw [List.dropWhile_cons, if_neg (by simp [hc])]
  · rw [pyStrip_data]
    exact List.rdropWhile_idempotent isWS _

theorem pyStrip_append_sep {a b : String} (ha : pyStrip a = a) (hb : pyStrip b = b)
    (hna : a ≠ "") (hnb : b ≠ "") : pyStrip (a ++ "\n\n" ++ b) = a ++ "\n\n" ++ b := by
  have hda : a.data ≠ [] := data_ne_of_ne_empty hna
  have hdb : b.data ≠ [] := data_ne_of_ne_empty hnb
  apply pyStrip_eq_self_of
  · rw [String.data_append, String.data_append]
    obtain ⟨c, ta, hta⟩ := List.exists_cons_of_ne_nil hda
    have hc : isWS c = false := stripped_head ha hta
    rw [hta, List.cons_append, List.cons_append, List.dropWhile_cons,
      if_neg (by simp [hc])]
  · rw [String.data_append, String.data_append]
    obtain ⟨bl, e, hbe⟩ := (List.eq_nil_or_concat b.data).resolve_left hdb
    rw [List.concat_eq_append] at hbe
    have he : isWS e = false := stripped_last hb hbe
    rw [hbe, ← List.append_assoc]
    exact List.rdropWhile_concat_neg isWS _ _ (by simp [he])

/-- The loop invariant of `chunk_text`: the buffer is stripped; an empty
buffer only occurs in the initial state; and while the buffer is non-empty,
the previously flushed chunk (if any) together with the buffer exceeds the
maximum — the reason the chunk was flushed. -/
def StInv (maxT : ℕ) (st : ChunkState) : Prop :=
  pyStrip st.cur = st.cur ∧
  (st.cur = "" → st.chunks = [] ∧ st.tok = 0) ∧
  (st.cur ≠ "" → st.chunks = [] ∨ maxT < (st.chunks.getLastD ("", 0)).2 + st.tok)

theorem stInv_init (maxT : ℕ) : StInv maxT ⟨[], "", 0⟩ :=
  ⟨pyStrip_empty, fun _ => ⟨rfl, rfl⟩, fun h => absurd rfl h⟩

theorem stInv_step (tc : String → ℕ) (maxT : ℕ) (st : ChunkState) (p : String)
    (h : StInv maxT st) : StInv maxT (chunkStep tc maxT st p) := by
  obtain ⟨h1, h2, h3⟩ := h
  rw [chunkStep]
  by_cases hp : pyStrip p = ""
  · rw [if_pos hp]
    exact ⟨h1, h2, h3⟩
  · rw [if_neg hp]
    by_cases hflush : st.cur ≠ "" ∧ maxT < st.tok + tc (pyStrip p)
    · rw [if_pos hflush]
      refine ⟨pyStrip_idem p, fun hc => absurd hc hp, fun _ => Or.inr ?_⟩
      rw [List.getLastD_concat]
      exact hflush.2
    · rw [if_neg hflush]
      by_cases hcur : st.cur ≠ ""
      · rw [if_pos hcur]
        refine ⟨pyStrip_append_sep h1 (pyStrip_idem p) hcur hp,
          fun hc => absurd hc (append_sep_ne_empty _ _), fun _ => ?_⟩
        rcases h3 hcur with hnil | hlt
        · exact Or.inl hnil
        · refine Or.inr ?_
          show maxT < (st.chunks.getLastD ("", 0)).2 + (st.tok + tc (pyStrip p))
          omega
      · rw [if_neg hcur]
        have hcur' : st.cur = "" := by
          by_contra hcon
          exact hcur hcon
        refine ⟨pyStrip_idem p, fun hc => absurd hc hp, fun _ => Or.inl (h2 hcur').1⟩

theorem stInv_run (tc : String → ℕ) (maxT : ℕ) (paras : List String) (st : ChunkState)
    (h : StInv maxT st) : StInv maxT (chunkRun tc maxT paras st) := by
  induction paras generalizing st with
  | nil => exact h
  | cons p ps ih =>
    rw [chunkRun, List.foldl_cons]
    exact ih (chunkStep tc maxT st p) (stInv_step tc maxT st p h)

theorem chunkRun_bound (tc : String → ℕ) (maxT : ℕ) (paras : List String) (st : ChunkState)
    (hinv : StInv maxT st) (hp : ∀ p ∈ paras, tc (pyStrip p) ≤ maxT)
    (h1 : st.tok ≤ maxT) (h2 : ∀ c ∈ st.chunks, c.2 ≤ maxT) :
    (chunkRun tc maxT paras st).tok ≤ maxT ∧
      ∀ c ∈ (chunkRun tc maxT paras st).chunks, c.2 ≤ maxT := by
  induction paras generalizing st with
  | nil => exact ⟨h1, h2⟩
  | cons p ps ih =>
    rw [chunkRun, List.foldl_cons]
    have hphead : tc (pyStrip p) ≤ maxT := hp p (List.mem_cons_self p ps)
    have hptail : ∀ q ∈ ps, tc (pyStrip q) ≤ maxT :=
      fun q hq => hp q (List.mem_cons_of_mem p hq)
    refine ih (chunkStep tc maxT st p) (stInv_step tc maxT st p hinv) hptail ?_ ?_
    · rw [chunkStep]
      by_cases hps : pyStrip p = ""
      · rw [if_pos hps]; exact h1
      · rw [if_neg hps]
        by_cases hflush : st.cur ≠ "" ∧ maxT < st.tok + tc (pyStrip p)
        · rw [if_pos hflush]; exact hphead
        · rw [if_neg hflush]
          by_cases hcur : st.cur ≠ ""
          · rw [if_pos hcur]
            have hle : ¬ maxT < st.tok + tc (pyStrip p) := fun hcon => hflush ⟨hcur, hcon⟩
            show st.tok + tc (pyStrip p) ≤ maxT
            omega
          · rw [if_neg hcur]
            have hcur' : st.cur = "" := by
              by_contra hcon
              exact hcur hcon
            have htok := (hinv.2.1 hcur').2
            show st.tok + tc (pyStrip p) ≤ maxT
            omega
    · rw [chunkStep]
      by_cases hps : pyStrip p = ""
      · rw [if_pos hps]; exact h2
      · rw [if_neg hps]
        by_cases hflush : st.cur ≠ "" ∧ maxT < st.tok + tc (pyStrip p)
        · rw [if_pos hflush]
          intro c hc
          rcases List.mem_append.mp hc with hc | hc
          · exact h2 c hc
          · rcases List.mem_singleton.mp hc with rfl
            exact h1
        · rw [if_neg hflush]
          by_cases hcur : st.cur ≠ ""
          · rw [if_pos hcur]; exact h2
          · rw [if_neg hcur]; exact h2

/-! ## Content preservation machinery -/

theorem joinPy_concat (l : List String) (x : String) :
    joinPy (l ++ [x]) = if l = [] then x else joinPy l ++ "\n\n" ++ x := by
  cases l with
  | nil => simp [joinPy]
  | cons a t => simp [joinPy, List.foldl_append]

theorem joinPy_concat_ne (l : List String) (x : String) (hx : x ≠ "") :
    joinPy (l ++ [x]) ≠ "" := by
  rw [joinPy_concat]
  by_cases hl : l = []
  · rw [if_pos hl]; exact hx
  · rw [if_neg hl]; exact append_sep_ne_empty _ _

/-- The text represented by a loop state: flushed chunks followed by the
pending buffer, joined by blank lines. -/
def stJoin (st : ChunkState) : String :=
  joinPy (st.chunks.map Prod.fst ++ if st.cur = "" then [] else [st.cur])

theorem stJoin_step (tc : String → ℕ) (maxT : ℕ) (st : ChunkState) (p : String)
    (hinv : StInv maxT st) :
    stJoin (chunkStep tc maxT st p) =
      if pyStrip p = "" then stJoin st else pyAppend (stJoin st) (pyStrip p) := by
  obtain ⟨h1, h2, h3⟩ := hinv
  rw [chunkStep]
  by_cases hp : pyStrip p = ""
  · rw [if_pos hp, if_pos hp]
  · rw [if_neg hp, if_neg hp]
    by_cases hflush : st.cur ≠ "" ∧ maxT < st.tok + tc (pyStrip p)
    · rw [if_pos hflush]
      show joinPy ((st.chunks ++ [(pyStrip st.cur, st.tok)]).map Prod.fst ++
          if pyStrip p = "" then [] else [pyStrip p]) = _
      rw [if_neg hp, List.map_append, List.map_singleton, h1,
        joinPy_concat (st.chunks.map Prod.fst ++ [st.cur]) (pyStrip p),
        if_neg (by simp : ¬ st.chunks.map Prod.fst ++ [st.cur] = ([] : List String))]
      rw [stJoin, if_neg hflush.1, pyAppend, if_neg (joinPy_concat_ne _ _ hflush.1)]
    · rw [if_neg hflush]
      by_cases hcur : st.cur ≠ ""
      · rw [if_pos hcur]
        show joinPy (st.chunks.map Prod.fst ++
            if st.cur ++ "\n\n" ++ pyStrip p = "" then []
            else [st.cur ++ "\n\n" ++ pyStrip p]) = _
        rw [if_neg (append_sep_ne_empty _ _), joinPy_concat, stJoin, if_neg hcur,
          pyAppend, if_neg (joinPy_concat_ne _ _ hcur), joinPy_concat]
        by_cases hA : st.chunks.map Prod.fst = []
        · rw [if_pos hA, if_pos hA]
        · rw [if_neg hA, if_neg hA]
          simp [String.append_assoc]
      · rw [if_neg hcur]
        have hcur2 : st.cur = "" := by
          by_contra hc
          exact hcur hc
        obtain ⟨hch, -⟩ := h2 hcur2
        show joinPy (st.chunks.map Prod.fst ++
            if pyStrip p = "" then [] else [pyStrip p]) = _
        rw [if_neg hp, hch]
        rw [stJoin, if_pos hcur2, hch]
        simp [joinPy, pyAppend]

theorem stJoin_run (tc : String → ℕ) (maxT : ℕ) (paras : List String) (st : ChunkState)
    (hinv : StInv maxT st) :
    stJoin (chunkRun tc maxT paras st) =
      paras.foldl (fun a q => if pyStrip q = "" then a else pyAppend a (pyStrip q))
        (stJoin st) := by
  induction paras generalizing st with
  | nil => rfl
  | cons p ps ih =>
    rw [chunkRun, List.foldl_cons, List.foldl_cons,
      ← stJoin_step tc maxT st p hinv]
    exact ih (chunkStep tc maxT st p) (stInv_step tc maxT st p hinv)

theorem foldl_pyAppend_clean (paras : List String) (a : String) :
    paras.foldl (fun a q => if pyStrip q = "" then a else pyAppend a (pyStrip q)) a =
      ((paras.map pyStrip).filter (fun p => p ≠ "")).foldl pyAppend a := by
  induction paras generalizing a with
  | nil => rfl
  | cons p ps ih =>
    rw [List.foldl_cons, List.map_cons]
    by_cases hp : pyStrip p = ""
    · rw [if_pos hp, List.filter_cons, if_neg (by simp [hp])]
      exact ih a
    · rw [if_neg hp, List.filter_cons, if_pos (by simp [hp]), List.foldl_cons]
      exact ih (pyAppend a (pyStrip p))

theorem foldl_rawAppend_of_ne (t : List String) (a : String) (ha : a ≠ "") :
    t.foldl pyAppend a = t.foldl (fun acc x => acc ++ "\n\n" ++ x) a := by
  induction t generalizing a with
  | nil => rfl
  | cons x ts ih =>
    rw [List.foldl_cons, List.foldl_cons, pyAppend, if_neg ha]
    exact ih (a ++ "\n\n" ++ x) (append_sep_ne_empty _ _)

theorem foldl_pyAppend_eq_joinPy (l : List String) (hl : ∀ x ∈ l, x ≠ "") :
    l.foldl pyAppend "" = joinPy l := by
  cases l with
  | nil => rfl
  | cons a t =>
    rw [List.foldl_cons, joinPy]
    have ha : pyAppend "" a = a := by rw [pyAppend, if_pos rfl]
    rw [ha]
    exact foldl_rawAppend_of_ne t a (hl a (List.mem_cons_self a t))

theorem chunkFinish_join (minT maxT : ℕ) (st : ChunkState) (hinv : StInv maxT st) :
    joinPy ((chunkFinish minT st).map Prod.fst) = stJoin st := by
  by_cases hcur : st.cur = ""
  · rw [chunkFinish, if_pos hcur, stJoin, if_pos hcur, List.append_nil]
  · rw [chunkFinish, if_neg hcur, stJoin, if_neg hcur]
    have hc1 : pyStrip st.cur = st.cur := hinv.1
    by_cases hcond : st.tok < minT ∧ st.chunks ≠ []
    · rw [if_pos hcond]
      obtain ⟨l2, x, hx⟩ := (List.eq_nil_or_concat st.chunks).resolve_left hcond.2
      rw [List.concat_eq_append] at hx
      rw [hx, List.dropLast_concat, List.getLastD_concat, hc1, List.map_append,
        List.map_singleton, List.map_append, List.map_singleton,
        joinPy_concat (l2.map Prod.fst) (x.1 ++ "\n\n" ++ st.cur),
        joinPy_concat (l2.map Prod.fst ++ [x.1]) st.cur,
        if_neg (by simp : ¬ l2.map Prod.fst ++ [x.1] = ([] : List String)),
        joinPy_concat (l2.map Prod.fst) x.1]
      by_cases hA : l2.map Prod.fst = []
      · rw [if_pos hA, if_pos hA]
      · rw [if_neg hA, if_neg hA]
        simp [String.append_assoc]
    · rw [if_neg hcond, hc1, List.map_append, List.map_singleton]

theorem chunkRun_skip_all (tc : String → ℕ) (maxT : ℕ) (paras : List String)
    (st : ChunkState) (h : ∀ p ∈ paras, pyStrip p = "") :
    chunkRun tc maxT paras st = st := by
  induction paras generalizing st with
  | nil => rfl
  | cons p ps ih =>
    rw [chunkRun, List.foldl_cons, chunkStep, if_pos (h p (List.mem_cons_self p ps))]
    exact ih st (fun q hq => h q (List.mem_cons_of_mem p hq))

theorem pySplitAux_chars (l acc : List Char) (piece : List Char)
    (hp : piece ∈ pySplitAux l acc) : ∀ c ∈ piece, c ∈ l ∨ c ∈ acc := by
  induction l, acc using pySplitAux.induct with
  | case1 acc =>
    rw [pySplitAux] at hp
    rcases List.mem_singleton.mp hp with rfl
    intro c hc
    exact Or.inr (List.mem_reverse.mp hc)
  | case2 c0 acc =>
    rw [pySplitAux] at hp
    rcases List.mem_singleton.mp hp with rfl
    intro c hc
    rcases List.mem_cons.mp (List.mem_reverse.mp hc) with rfl | hc
    · exact Or.inl (List.mem_singleton_self c)
    · exact Or.inr hc
  | case3 c1 c2 rest acc hsep ih =>
    rw [pySplitAux, if_pos hsep] at hp
    rcases List.mem_cons.mp hp with rfl | hp
    · intro c hc
      exact Or.inr (List.mem_reverse.mp hc)
    · intro c hc
      rcases ih hp c hc with hc2 | hc2
      · exact Or.inl (List.mem_cons_of_mem c1 (List.mem_cons_of_mem c2 hc2))
      · exact absurd hc2 (List.not_mem_nil c)
  | case4 c1 c2 rest acc hsep ih =>
    rw [pySplitAux, if_neg hsep] at hp
    intro c hc
    rcases ih hp c hc with hc2 | hc2
    · exact Or.inl (List.mem_cons_of_mem c1 hc2)
    · rcases List.mem_cons.mp hc2 with rfl | hc3
      · exact Or.inl (List.mem_cons_self c _)
      · exact Or.inr hc3

theorem mem_pySplit_chars {text p : String} (hp : p ∈ pySplit text) :
    ∀ c ∈ p.data, c ∈ text.data := by
  rw [pySplit] at hp
  obtain ⟨piece, hpiece, rfl⟩ := List.mem_map.mp hp
  intro c hc
  rcases pySplitAux_chars text.data [] piece hpiece c hc with h | h
  · exact h
  · exact absurd h (List.not_mem_nil c)

theorem pyStrip_of_all_ws {s : String} (h : ∀ c ∈ s.data, isWS c = true) :
    pyStrip s = "" := by
  apply String.ext
  rw [pyStrip_data, List.dropWhile_eq_nil_iff.mpr h]
  rfl

/-! ## Claim theorems: chunker -/

/-- C3 counterexample: with bounds `min_tokens = 3 ≤ max_tokens = 4` and the
tokenizer abstracted as character count, the two-paragraph text produces a
non-last chunk of 2 tokens (below the minimum) and a chunk of 5 tokens
(above the maximum): `chunk_text` has no force-split fallback, an oversized
paragraph is emitted whole, so the claimed bounds fail. -/
theorem chunk_bounds_counterexample :
    chunk_textP (fun s => s.length) 3 4 "aa\n\nbbbbb" = [("aa", 2), ("bbbbb", 5)] ∧
    2 < 3 ∧ 4 < 5 :=
  ⟨by decide, by omega, by omega⟩

/-- C3 amended: provided every (stripped) paragraph's token count is at most
`max_tokens`, every produced chunk except the document's last has tracked
token count at most `max_tokens`; the `min_tokens` lower bound and the
force-split of oversized paragraphs do not hold (see the counterexample). -/
theorem chunk_bounds_amended (tc : String → ℕ) (minT maxT : ℕ) (text : String)
    (hp : ∀ p ∈ pySplit text, tc (pyStrip p) ≤ maxT) :
    ∀ c ∈ (chunk_textP tc minT maxT text).dropLast, c.2 ≤ maxT := by
  have hrun := chunkRun_bound tc maxT (pySplit text) ⟨[], "", 0⟩ (stInv_init maxT) hp
    (Nat.zero_le maxT) (fun c hc => absurd hc (List.not_mem_nil c))
  intro c hc
  rw [chunk_textP] at hc
  by_cases hcur : (chunkRun tc maxT (pySplit text) ⟨[], "", 0⟩).cur = ""
  · rw [chunkFinish, if_pos hcur] at hc
    exact hrun.2 c ((List.dropLast_sublist _).subset hc)
  · simp only [chunkFinish, if_neg hcur] at hc
    by_cases hcond : (chunkRun tc maxT (pySplit text) ⟨[], "", 0⟩).tok < minT ∧
        (chunkRun tc maxT (pySplit text) ⟨[], "", 0⟩).chunks ≠ []
    · rw [if_pos hcond, List.dropLast_concat] at hc
      exact hrun.2 c ((List.dropLast_sublist _).subset hc)
    · rw [if_neg hcond, List.dropLast_concat] at hc
      exact hrun.2 c hc

theorem chunk_bounds_amended_witness :
    (∀ p ∈ pySplit "aaaa\n\nbbbb", (pyStrip p).length ≤ 6) ∧
    (("aaaa", 4) : String × ℕ).2 ≤ 6 :=
  ⟨by decide, chunk_bounds_amended (fun s => s.length) 2 6 "aaaa\n\nbbbb" (by decide)
    ("aaaa", 4) (by decide)⟩

/-- C7: after the paragraph loop, a remaining buffer whose tracked token
count is below `min_tokens` while a prior chunk exists is appended to the
previous chunk rather than emitted as a new one (the chunk count equals the
loop state's chunk count); consequently, when `min_tokens ≤ max_tokens` and
the result has at least two chunks, the last chunk's tracked token count is
at least `min_tokens`. -/
theorem chunk_text_trailing_merge (tc : String → ℕ) (minT maxT : ℕ) (text : String) :
    (∀ st : ChunkState, chunkRun tc maxT (pySplit text) ⟨[], "", 0⟩ = st →
      st.tok < minT → st.chunks ≠ [] → st.cur ≠ "" →
      chunk_textP tc minT maxT text =
        st.chunks.dropLast ++
          [((st.chunks.getLastD ("", 0)).1 ++ "\n\n" ++ st.cur,
            (st.chunks.getLastD ("", 0)).2 + st.tok)] ∧
      (chunk_textP tc minT maxT text).length = st.chunks.length) ∧
    (minT ≤ maxT → 2 ≤ (chunk_textP tc minT maxT text).length →
      minT ≤ ((chunk_textP tc minT maxT text).getLastD ("", 0)).2) := by
  have hinv := stInv_run tc maxT (pySplit text) ⟨[], "", 0⟩ (stInv_init maxT)
  constructor
  · intro st hst hm hc hcur
    subst hst
    constructor
    · rw [chunk_textP]
      simp only [chunkFinish, if_neg hcur, if_pos (And.intro hm hc), hinv.1]
    · rw [chunk_textP]
      simp only [chunkFinish, if_neg hcur, if_pos (And.intro hm hc)]
      rw [List.length_append, List.length_dropLast, List.length_singleton]
      have := List.length_pos.mpr hc
      omega
  · intro hminmax hlen
    by_cases hcur : (chunkRun tc maxT (pySplit text) ⟨[], "", 0⟩).cur = ""
    · exfalso
      have hch := (hinv.2.1 hcur).1
      rw [chunk_textP, chunkFinish, if_pos hcur, hch] at hlen
      simp at hlen
    · by_cases hcond : (chunkRun tc maxT (pySplit text) ⟨[], "", 0⟩).tok < minT ∧
          (chunkRun tc maxT (pySplit text) ⟨[], "", 0⟩).chunks ≠ []
      · rcases hinv.2.2 hcur with hnil | hlt
        · exact absurd hnil hcond.2
        · rw [chunk_textP]
          simp only [chunkFinish, if_neg hcur, if_pos hcond]
          rw [List.getLastD_concat]
          omega
      · rw [chunk_textP] at hlen ⊢
        simp only [chunkFinish, if_neg hcur, if_neg hcond] at hlen ⊢
        rw [List.getLastD_concat]
        by_cases hch : (chunkRun tc maxT (pySplit text) ⟨[], "", 0⟩).chunks = []
        · rw [hch] at hlen
          simp at hlen
        · have : ¬ (chunkRun tc maxT (pySplit text) ⟨[], "", 0⟩).tok < minT :=
            fun hlt2 => hcond ⟨hlt2, hch⟩
          omega

theorem chunk_text_trailing_merge_witness :
    2 ≤ (chunk_textP (fun s => s.length) 3 10 "aaaaaaaa\n\nbbbbbbbb\n\ncccc").length ∧
    3 ≤ ((chunk_textP (fun s => s.length) 3 10 "aaaaaaaa\n\nbbbbbbbb\n\ncccc").getLastD
      ("", 0)).2 :=
  ⟨by decide,
   (chunk_text_trailing_merge (fun s => s.length) 3 10 "aaaaaaaa\n\nbbbbbbbb\n\ncccc").2
     (by decide) (by decide)⟩

/-- C9: `chunk_text` preserves content: joining the produced chunks with a
blank line yields the same string as joining the non-empty stripped
paragraphs of the input with a blank line (since neither chunks nor
paragraphs contain a blank line internally, splitting that string on blank
lines recovers exactly the paragraph sequence — nothing dropped, duplicated
or reordered); an input with no non-empty paragraph, in particular an empty
or whitespace-only input, yields the empty chunk list. -/
theorem chunk_text_preserves_content (tc : String → ℕ) (text : String) :
    joinPy (chunk_text tc text) = joinPy (cleanParas text) ∧
    (cleanParas text = [] → chunk_text tc text = []) ∧
    ((∀ c ∈ text.data, isWS c = true) → chunk_text tc text = []) := by
  have key : (∀ p ∈ pySplit text, pyStrip p = "") → chunk_text tc text = [] := by
    intro hall
    rw [chunk_text, chunk_textP, chunkRun_skip_all tc _ _ _ hall]
    rfl
  refine ⟨?_, ?_, ?_⟩
  · rw [chunk_text, chunk_textP,
      chunkFinish_join MIN_CHUNK_TOKENS MAX_CHUNK_TOKENS _
        (stInv_run _ _ _ _ (stInv_init _)),
      stJoin_run _ _ _ _ (stInv_init _)]
    have hj : stJoin ⟨[], "", 0⟩ = "" := rfl
    rw [hj, foldl_pyAppend_clean, foldl_pyAppend_eq_joinPy]
    · rfl
    · intro x hx
      exact of_decide_eq_true (List.mem_filter.mp hx).2
  · intro hclean
    refine key ?_
    intro p hp
    by_contra hne
    have hmem : pyStrip p ∈ ((pySplit text).map pyStrip).filter (fun q => q ≠ "") :=
      List.mem_filter.mpr ⟨List.mem_map_of_mem pyStrip hp, by simp [hne]⟩
    rw [show ((pySplit text).map pyStrip).filter (fun q => q ≠ "") = cleanParas text
      from rfl, hclean] at hmem
    exact absurd hmem (List.not_mem_nil _)
  · intro hws
    exact key (fun p hp =>
      pyStrip_of_all_ws (fun c hc => hws c (mem_pySplit_chars hp c hc)))

theorem chunk_text_preserves_content_witness :
    joinPy (chunk_text (fun s => s.length) " a \n\nb") =
      joinPy (cleanParas " a \n\nb") ∧
    chunk_text (fun s => s.length) "  \n\n \t " = [] :=
  ⟨(chunk_text_preserves_content (fun s => s.length) " a \n\nb").1,
   (chunk_text_preserves_content (fun s => s.length) "  \n\n \t ").2.2 (by decide)⟩

/-! ## Claim theorems: reranker -/

/-- C5 counterexample: three candidates with a malformed single-score judge
output: `zip` silently truncates, the result keeps only the first candidate
— candidates are dropped and the pre-rerank order is not returned. -/
theorem rerank_batch_counterexample :
    rerank_with_llm_batch ([10, 20, 30] : List ℕ) ([5] : List ℤ) 3 = [(10, 5)] ∧
    (rerank_with_llm_batch ([10, 20, 30] : List ℕ) ([5] : List ℤ) 3).map Prod.fst ≠
      [10, 20, 30] := by
  decide

/-- C5 amended: there is no fallback to the pre-rerank order: candidates are
paired positionally with the available scores (`zip` truncates to the
shorter list, silently dropping unpaired candidates), sorted by score
descending, and truncated to `top_n`; every returned pair comes from that
positional pairing and the result length is
`min top_n (min |candidates| |scores|)`. -/
theorem rerank_batch_amended {α : Type} (documents : List α) (scores : List ℤ) (n : ℕ) :
    (rerank_with_llm_batch documents scores n).length =
      min n (min documents.length scores.length) ∧
    List.Sorted (fun x y : α × ℤ => y.2 ≤ x.2) (rerank_with_llm_batch documents scores n) ∧
    ∀ q ∈ rerank_with_llm_batch documents scores n, q ∈ documents.zip scores := by
  haveI : IsTotal (α × ℤ) (fun x y => y.2 ≤ x.2) := ⟨fun a b => le_total b.2 a.2⟩
  haveI : IsTrans (α × ℤ) (fun x y => y.2 ≤ x.2) := ⟨fun a b c h1 h2 => le_trans h2 h1⟩
  refine ⟨?_, ?_, ?_⟩
  · rw [rerank_with_llm_batch, List.length_take, List.length_insertionSort,
      List.length_zip]
  · exact List.Pairwise.sublist (List.take_sublist _ _) (List.sorted_insertionSort _ _)
  · intro q hq
    have h1 : q ∈ (documents.zip scores).insertionSort (fun x y => y.2 ≤ x.2) :=
      List.mem_of_mem_take hq
    exact (List.perm_insertionSort _ _).mem_iff.mp h1

/-! ## Claim theorems: ingestion -/

/-- A trivial embedder used for concrete evaluations. -/
def unitEmbed : String → Unit := fun _ => ()

/-- Supporting fact for C2: the week-3-doc-search `ingest_document`
(delete-then-insert) is idempotent on the stored state: re-ingesting the
same text returns the same count and leaves the table unchanged. -/
theorem week3_ingest_document_idempotent {E : Type} (tc : String → ℕ)
    (embed : String → E) (source text : String) (db : List (Row E)) :
    ingest_document tc embed source text (ingest_document tc embed source text db).2 =
      ingest_document tc embed source text db := by
  by_cases h1 : pyStrip text = ""
  · simp [ingest_document, h1]
  · by_cases h2 : chunk_text tc text = []
    · simp [ingest_document, h1, h2]
    · simp only [ingest_document, if_neg h1, if_neg h2]
      rw [List.filter_append]
      have hff : ((db.filter (fun r => r.source ≠ source)).filter
          (fun r => r.source ≠ source)) = db.filter (fun r => r.source ≠ source) := by
        apply List.filter_eq_self.mpr
        intro a ha
        exact (List.mem_filter.mp ha).2
      have hmap : (((chunk_text tc text).map
          (fun c => (⟨source, c, embed c⟩ : Row E))).filter
          (fun r => r.source ≠ source)) = [] := by
        apply List.filter_eq_nil_iff.mpr
        intro a ha
        obtain ⟨c, -, rfl⟩ := List.mem_map.mp ha
        simp
      rw [hff, hmap, List.append_nil]

/-- C2 failing-input evaluation: the week-4 rag-chatbot `ingest_document`
inserts without deleting, so re-ingesting the same two-chunk document leaves
four rows — every chunk duplicated — contradicting the claimed
delete-then-insert idempotent replace (which the week-3-doc-search variant
does satisfy, see `week3_ingest_document_idempotent`). -/
theorem week4_reingest_duplicates_rows :
    ingest_document_w4 unitEmbed "doc.md" ["c1", "c2"] [] =
      (2, [⟨"doc.md", "c1", ()⟩, ⟨"doc.md", "c2", ()⟩]) ∧
    ingest_document_w4 unitEmbed "doc.md" ["c1", "c2"]
        (ingest_document_w4 unitEmbed "doc.md" ["c1", "c2"] []).2 =
      (2, [⟨"doc.md", "c1", ()⟩, ⟨"doc.md", "c2", ()⟩,
        ⟨"doc.md", "c1", ()⟩, ⟨"doc.md", "c2", ()⟩]) := by
  decide

/-- C10: on a source whose parse result is empty or whitespace-only (or
chunks to nothing), `ingest_document` returns 0 and performs no database
operation: previously stored chunks of the source are left untouched. -/
theorem ingest_document_noop_on_empty {E : Type} (tc : String → ℕ)
    (embed : String → E) (source text : String) (db : List (Row E))
    (h : pyStrip text = "" ∨ chunk_text tc text = []) :
    ingest_document tc embed source text db = (0, db) := by
  rcases h with h | h
  · rw [ingest_document, if_pos h]
  · by_cases h1 : pyStrip text = ""
    · rw [ingest_document, if_pos h1]
    · simp [ingest_document, h1, h]

theorem ingest_document_noop_on_empty_witness :
    (pyStrip "  \n\n \t " = "" ∨ chunk_text (fun s => s.length) "  \n\n \t " = []) ∧
    ingest_document (fun s => s.length) unitEmbed "a.md" "  \n\n \t "
      [⟨"a.md", "old", ()⟩] = (0, [⟨"a.md", "old", ()⟩]) :=
  ⟨Or.inl (by decide),
    ingest_document_noop_on_empty (fun s => s.length) unitEmbed "a.md" "  \n\n \t "
      [⟨"a.md", "old", ()⟩] (Or.inl (by decide))⟩

/-- C8: directory ingestion is source-scoped: every file is attempted, a
failure only increments `failed` and the loop continues, so
`success + failed` equals the number of files attempted (= `total`) and
`chunks` is the sum of the chunk counts of exactly the successful files. -/
theorem ingest_directory_stats {α : Type} (ingestOne : α → Option ℕ) (files : List α) :
    (ingest_directory ingestOne files).total = files.length ∧
    (ingest_directory ingestOne files).success + (ingest_directory ingestOne files).failed =
      files.length ∧
    (ingest_directory ingestOne files).chunks = (files.filterMap ingestOne).sum := by
  have haux : ∀ (fs : List α) (st : IngestStats),
      ((fs.foldl (fun st file =>
        match ingestOne file with
        | some n => { st with success := st.success + 1, chunks := st.chunks + n }
        | none => { st with failed := st.failed + 1 }) st).total = st.total ∧
      (fs.foldl (fun st file =>
        match ingestOne file with
        | some n => { st with success := st.success + 1, chunks := st.chunks + n }
        | none => { st with failed := st.failed + 1 }) st).success +
        (fs.foldl (fun st file =>
        match ingestOne file with
        | some n => { st with success := st.success + 1, chunks := st.chunks + n }
        | none => { st with failed := st.failed + 1 }) st).failed =
        st.success + st.failed + fs.length ∧
      (fs.foldl (fun st file =>
        match ingestOne file with
        | some n => { st with success := st.success + 1, chunks := st.chunks + n }
        | none => { st with failed := st.failed + 1 }) st).chunks =
        st.chunks + (fs.filterMap ingestOne).sum) := by
    intro fs
    induction fs with
    | nil => intro st; simp
    | cons f t ih =>
      intro st
      rw [List.foldl_cons, List.filterMap_cons]
      cases hf : ingestOne f with
      | none =>
        obtain ⟨ha, hb, hc⟩ := ih { st with failed := st.failed + 1 }
        dsimp only at ha hb hc
        refine ⟨by rw [ha], ?_, by rw [hc]⟩
        rw [hb]
        simp only [List.length_cons]
        omega
      | some n =>
        obtain ⟨ha, hb, hc⟩ := ih { st with success := st.success + 1, chunks := st.chunks + n }
        dsimp only at ha hb hc
        refine ⟨by rw [ha], ?_, ?_⟩
        · rw [hb]
          simp only [List.length_cons]
          omega
        · rw [hc, List.sum_cons]
          omega
  obtain ⟨ha, hb, hc⟩ := haux files ⟨files.length, 0, 0, 0⟩
  dsimp only at ha hb hc
  rw [ingest_directory]
  refine ⟨by rw [ha], ?_, ?_⟩
  · rw [hb]
    omega
  · rw [hc]
    omega

end HybridSearch
